import Mathlib

/-!
# Register protocol of the FIR HWPE driver

Shallow embedding of `sw/hal_fir.h` (the hardware abstraction layer of the FIR
accelerator) and of `sw/tb_fir.c` (its bare-metal testbench).

* Memory is a map from byte address to 32-bit word.  A word is a natural number
  below `2^32`; every store reduces the stored value modulo `2^32` and every
  load reads modulo `2^32`, so `unsigned int` and `int` values share one bit
  pattern and differ only in how a loaded word is interpreted (`toInt32`).
* Every load and store is appended to a trace in program order, the order of
  the C abstract machine.  `HWPE_WRITE` and `HWPE_READ` access the registers
  through a plain `int *`, not a `volatile int *`.  For such accesses C fixes
  the values and the final memory, not what reaches the bus: stores to
  different addresses may be issued in another order (`plain_store_order`),
  and a load may be reused where the program wrote nothing in between.
* `ARCHI_HWPE_ADDR_BASE` is used by `HWPE_WRITE` and `HWPE_READ` but is defined
  in neither source file; it is the parameter `base` of every operation.  The
  register at byte offset `o` lives at address `base + o`.
* Line 68 of `hal_fir.h` reads `HWPE_WRITE(res, FIR_REG_SHIFT_LENGTH;` (the
  closing parenthesis is missing).  It is embedded as the call
  `HWPE_WRITE(res, FIR_REG_SHIFT_LENGTH);` that the line evidently spells.
-/

namespace FirHwpe

/-! ## Machine model -/

/-- One access of the program.  `read` and `write` are a plain load and a
plain store through `int *`, with the address and the 32-bit word loaded or
stored.  `local_read` and `local_write` are the accesses to the `volatile`
local variable `errors` of `main`, which lives on the stack and not in the
memory map, with the word loaded or stored. -/
inductive Access where
  | read (addr : Nat) (word : Nat)
  | write (addr : Nat) (word : Nat)
  | local_read (word : Nat)
  | local_write (word : Nat)
  deriving DecidableEq

/-- The memory as the program sees it, and the accesses made so far in program
order (oldest first). -/
structure Machine where
  mem : Nat → Nat
  trace : List Access

/-- A 32-bit word read as a C `int` (two's complement). -/
def toInt32 (w : Nat) : Int :=
  if w % 2 ^ 32 < 2 ^ 31 then ((w % 2 ^ 32 : Nat) : Int) else ((w % 2 ^ 32 : Nat) : Int) - 2 ^ 32

/-- The bit pattern of a C `int`. -/
def toWord (i : Int) : Nat :=
  (i % 2 ^ 32).toNat

/-- The store `*(int *) addr = value`. -/
def store (addr value : Nat) (s : Machine) : Machine :=
  { mem := fun a => if a = addr then value % 2 ^ 32 else s.mem a
    trace := s.trace ++ [Access.write addr (value % 2 ^ 32)] }

/-- The load `*(int *) addr`: the word read and the machine with the access
recorded. -/
def load (addr : Nat) (s : Machine) : Nat × Machine :=
  (s.mem addr % 2 ^ 32,
   { mem := s.mem, trace := s.trace ++ [Access.read addr (s.mem addr % 2 ^ 32)] })

/-! ## `hal_fir.h` -/

def ARCHI_CL_EVT_ACC0 : Nat := 0
def ARCHI_CL_EVT_ACC1 : Nat := 1

/-- The fallback macro
`#define __builtin_bitinsert(a,b,c,d) (a | (((b << (32-c)) >> (32-c)) << d))`
over `unsigned int` operands: every shift result is reduced modulo `2^32`
(a right shift cannot overflow).  The shift count `32 - c` is only defined in C
for `1 ≤ c ≤ 32`. -/
def __builtin_bitinsert (a b c d : Nat) : Nat :=
  a ||| ((((b <<< (32 - c)) % 2 ^ 32) >>> (32 - c)) <<< d) % 2 ^ 32

def FIR_ACQUIRE : Nat := 0x04
def FIR_FINISHED : Nat := 0x08
def FIR_STATUS : Nat := 0x0c
def FIR_RUNNING_JOB : Nat := 0x10
def FIR_SOFT_CLEAR : Nat := 0x14

def FIR_REG_X_ADDR : Nat := 0x40
def FIR_REG_H_ADDR : Nat := 0x44
def FIR_REG_Y_ADDR : Nat := 0x48
def FIR_REG_SHIFT_LENGTH : Nat := 0x4c

def FIR_ADDR_BASE : Nat := 0x100000
def FIR_ADDR_SPACE : Nat := 0x00000100

/-- The macro `HWPE_WRITE(value, offset)`, that is
`*(int *)(ARCHI_HWPE_ADDR_BASE + offset) = value`. -/
def HWPE_WRITE (base value offset : Nat) (s : Machine) : Machine :=
  store (base + offset) value s

/-- The macro `HWPE_READ(offset)`, that is
`*(int *)(ARCHI_HWPE_ADDR_BASE + offset)`: an `int`. -/
def HWPE_READ (base offset : Nat) (s : Machine) : Int × Machine :=
  (toInt32 (load (base + offset) s).1, (load (base + offset) s).2)

def fir_x_addr_set (base value : Nat) (s : Machine) : Machine :=
  HWPE_WRITE base value FIR_REG_X_ADDR s

def fir_y_addr_set (base value : Nat) (s : Machine) : Machine :=
  HWPE_WRITE base value FIR_REG_Y_ADDR s

def fir_h_addr_set (base value : Nat) (s : Machine) : Machine :=
  HWPE_WRITE base value FIR_REG_H_ADDR s

/-- The body of `fir_shift_length_set`: `res` starts at 0 and is ORed with the
two masked fields; the left shift is an `unsigned int` shift (modulo `2^32`). -/
def fir_shift_length_set (base shift length : Nat) (s : Machine) : Machine :=
  let res : Nat := 0
  let res := res ||| ((((length &&& 0xffff) <<< 16) % 2 ^ 32) ||| (shift &&& 0x1f))
  HWPE_WRITE base res FIR_REG_SHIFT_LENGTH s

def fir_acquire_job (base : Nat) (s : Machine) : Int × Machine :=
  HWPE_READ base FIR_ACQUIRE s

/-- The status word: the `int` read is returned as `unsigned int`. -/
def fir_get_status (base : Nat) (s : Machine) : Nat × Machine :=
  (toWord (HWPE_READ base FIR_STATUS s).1, (HWPE_READ base FIR_STATUS s).2)

/-- The local `volatile int i` is never accessed; the body is one write. -/
def fir_soft_clear (base : Nat) (s : Machine) : Machine :=
  HWPE_WRITE base 0 FIR_SOFT_CLEAR s

/-! ## The accelerator as seen from the bus

The driver only reads the ACQUIRE register; which word it finds there is
decided by the accelerator.  For the acquire loop of `main`, whose calls of
the external function `hwpe_acquire_job` cannot be merged, the accelerator's
answers are an input of the model: a list of words, one per call, each placed
in the register just before the call. -/

/-- The accelerator sets the word that the next read of ACQUIRE finds.  This is
not an access of the processor and leaves the trace alone. -/
def hw_present (base v : Nat) (s : Machine) : Machine :=
  { mem := fun a => if a = base + FIR_ACQUIRE then v % 2 ^ 32 else s.mem a
    trace := s.trace }

/-! ## `tb_fir.c` -/

/-- The address of a plain access; 0 for an access to the local. -/
def Access.addr : Access → Nat
  | Access.read a _ => a
  | Access.write a _ => a
  | _ => 0

/-- The effect of one access on the memory: a plain store replaces the word at
its address, every other access leaves the memory alone. -/
def Access.apply : Access → (Nat → Nat) → (Nat → Nat)
  | Access.write a v, m => fun x => if x = a then v else m x
  | _, m => m

/-- A machine with all-zero memory and no access made. -/
def Machine.zero : Machine :=
  { mem := fun _ => 0, trace := [] }

/-! ## Word arithmetic -/

theorem and_mask16 (x : Nat) : x &&& 0xffff = x % 65536 :=
  Nat.and_pow_two_sub_one_eq_mod x 16

theorem and_mask5 (x : Nat) : x &&& 0x1f = x % 32 :=
  Nat.and_pow_two_sub_one_eq_mod x 5

/-- The parameter word in arithmetic form. -/
theorem param_word_eq (shift length : Nat) :
    (0 ||| ((((length &&& 0xffff) <<< 16) % 2 ^ 32) ||| (shift &&& 0x1f))) % 2 ^ 32
      = (length % 65536) * 65536 + shift % 32 := by
  rw [and_mask16, and_mask5, Nat.zero_or, Nat.shiftLeft_eq]
  have h1 : length % 65536 < 65536 := Nat.mod_lt _ (by norm_num)
  have h2 : shift % 32 < 2 ^ 16 := lt_trans (Nat.mod_lt _ (by norm_num)) (by norm_num)
  have h3 : length % 65536 * 2 ^ 16 % 2 ^ 32 = 2 ^ 16 * (length % 65536) := by
    norm_num
    omega
  rw [h3, ← Nat.mul_add_lt_is_or h2]
  norm_num
  omega

/-- The register written by `fir_shift_length_set` holds the parameter word. -/
theorem shift_length_mem (base shift length : Nat) (s : Machine) :
    (fir_shift_length_set base shift length s).mem (base + 0x4c)
      = (length % 65536) * 65536 + shift % 32 := by
  have h := param_word_eq shift length
  simpa [fir_shift_length_set, HWPE_WRITE, store, FIR_REG_SHIFT_LENGTH] using h

/-- The parameter word read back from its register, in arithmetic form. -/
theorem shift_length_load (base shift length : Nat) (s : Machine) :
    (load (base + 0x4c) (fir_shift_length_set base shift length s)).1
      = (length % 65536) * 65536 + shift % 32 := by
  have h := shift_length_mem base shift length s
  have h1 : length % 65536 < 65536 := Nat.mod_lt _ (by norm_num)
  have h2 : shift % 32 < 32 := Nat.mod_lt _ (by norm_num)
  show (fir_shift_length_set base shift length s).mem (base + 0x4c) % 2 ^ 32 = _
  rw [h]
  norm_num
  omega

/-- Masking with `0xffe0` only looks at the low 16 bits. -/
theorem and_ffe0_low (w : Nat) : w &&& 0xffe0 = (w % 65536) &&& 0xffe0 := by
  rw [← and_mask16 w, Nat.and_assoc]
  rfl

theorem and_ffe0_small : ∀ y < 32, y &&& 0xffe0 = 0 := by
  decide

theorem testBit_ffe0 (i : Nat) (h5 : 5 ≤ i) (h16 : i < 16) : Nat.testBit 0xffe0 i = true := by
  interval_cases i <;> rfl

/-- The field that the macro ORs into `a`: the low `c` bits of `b`, moved to
position `d`. -/
theorem bitinsert_field (b c d : Nat) (hcd : d + c ≤ 32) :
    ((((b <<< (32 - c)) % 2 ^ 32) >>> (32 - c)) <<< d) % 2 ^ 32 = (b % 2 ^ c) <<< d := by
  have hc : c ≤ 32 := by omega
  have hpow : (2:Nat) ^ 32 = 2 ^ c * 2 ^ (32 - c) := by
    rw [← pow_add]; congr 1; omega
  have h1 : (b <<< (32 - c)) % 2 ^ 32 = (b % 2 ^ c) * 2 ^ (32 - c) := by
    rw [Nat.shiftLeft_eq, hpow, Nat.mul_mod_mul_right]
  have h2 : ((b % 2 ^ c) * 2 ^ (32 - c)) >>> (32 - c) = b % 2 ^ c := by
    rw [Nat.shiftRight_eq_div_pow, Nat.mul_div_cancel _ (Nat.two_pow_pos _)]
  rw [h1, h2]
  apply Nat.mod_eq_of_lt
  rw [Nat.shiftLeft_eq]
  calc b % 2 ^ c * 2 ^ d < 2 ^ c * 2 ^ d :=
        Nat.mul_lt_mul_of_pos_right (Nat.mod_lt _ (Nat.two_pow_pos _)) (Nat.two_pow_pos _)
    _ = 2 ^ (c + d) := (pow_add 2 c d).symm
    _ ≤ 2 ^ 32 := Nat.pow_le_pow_right (by norm_num) (by omega)

/-- Bits of a `c`-bit field placed at position `d`. -/
theorem testBit_field (b c d i : Nat) :
    ((b % 2 ^ c) <<< d).testBit i = (decide (d ≤ i) && (decide (i - d < c) && b.testBit (i - d))) := by
  rw [Nat.testBit_shiftLeft, Nat.testBit_mod_two_pow]

/-! ## The parameter register -/

/-- C1: for every shift in 0..31 and every length in 0..65535, the word that
`fir_shift_length_set(shift, length)` leaves in REG_SHIFT_LENGTH (offset 0x4c),
read back from the register, decodes to the same pair: its low five bits are
`shift` and its upper half is `length`. -/
theorem shift_length_round_trip (base shift length : Nat) (s : Machine)
    (hshift : shift ≤ 31) (hlength : length ≤ 65535) :
    (load (base + 0x4c) (fir_shift_length_set base shift length s)).1 &&& 0x1f = shift ∧
    (load (base + 0x4c) (fir_shift_length_set base shift length s)).1 >>> 16 = length := by
  rw [shift_length_load, and_mask5, Nat.shiftRight_eq_div_pow]
  norm_num
  omega

/-- The testbench call `fir_shift_length_set(17, 512)` writes `0x02000011`,
which decodes to (17, 512). -/
theorem shift_length_round_trip_witness :
    (17 ≤ 31 ∧ 512 ≤ 65535) ∧
    (load (FIR_ADDR_BASE + 0x4c) (fir_shift_length_set FIR_ADDR_BASE 17 512 Machine.zero)).1
      = 0x02000011 ∧
    (load (FIR_ADDR_BASE + 0x4c) (fir_shift_length_set FIR_ADDR_BASE 17 512 Machine.zero)).1
      &&& 0x1f = 17 ∧
    (load (FIR_ADDR_BASE + 0x4c) (fir_shift_length_set FIR_ADDR_BASE 17 512 Machine.zero)).1
      >>> 16 = 512 :=
  ⟨⟨by decide, by decide⟩, by decide,
    shift_length_round_trip FIR_ADDR_BASE 17 512 Machine.zero (by decide) (by decide)⟩

/-- C2: for all arguments, also `shift ≥ 32` and `length ≥ 65536`, the word
written to REG_SHIFT_LENGTH has bits[4:0] equal to `shift mod 32` and
bits[31:16] equal to `length mod 65536`; the length field does not depend on
the shift argument nor the shift field on the length argument; shift 32 packs
as 0 and length 65536 packs as 0.  The operation is a total function: it
yields a machine for every input. -/
theorem shift_length_truncates (base shift length : Nat) (s : Machine) :
    (fir_shift_length_set base shift length s).mem (base + 0x4c) &&& 0x1f = shift % 32 ∧
    (fir_shift_length_set base shift length s).mem (base + 0x4c) >>> 16 = length % 65536 ∧
    (∀ shift2 : Nat,
      (fir_shift_length_set base shift2 length s).mem (base + 0x4c) >>> 16
        = (fir_shift_length_set base shift length s).mem (base + 0x4c) >>> 16) ∧
    (∀ length2 : Nat,
      (fir_shift_length_set base shift length2 s).mem (base + 0x4c) &&& 0x1f
        = (fir_shift_length_set base shift length s).mem (base + 0x4c) &&& 0x1f) ∧
    (fir_shift_length_set base 32 length s).mem (base + 0x4c) &&& 0x1f = 0 ∧
    (fir_shift_length_set base shift 65536 s).mem (base + 0x4c) >>> 16 = 0 ∧
    (fir_shift_length_set base shift length s).trace
      = s.trace ++ [Access.write (base + 0x4c)
          ((fir_shift_length_set base shift length s).mem (base + 0x4c))] := by
  have key : ∀ sh len : Nat,
      (fir_shift_length_set base sh len s).mem (base + 0x4c) &&& 0x1f = sh % 32 ∧
      (fir_shift_length_set base sh len s).mem (base + 0x4c) >>> 16 = len % 65536 := by
    intro sh len
    rw [shift_length_mem, and_mask5, Nat.shiftRight_eq_div_pow]
    have h1 : len % 65536 < 65536 := Nat.mod_lt _ (by norm_num)
    have h2 : sh % 32 < 32 := Nat.mod_lt _ (by norm_num)
    norm_num
    omega
  refine ⟨(key shift length).1, (key shift length).2, ?_, ?_, ?_, ?_, ?_⟩
  · intro shift2
    rw [(key shift2 length).2, (key shift length).2]
  · intro length2
    rw [(key shift length2).1, (key shift length).1]
  · rw [(key 32 length).1]
  · rw [(key shift 65536).2]
  · simp [fir_shift_length_set, HWPE_WRITE, store, FIR_REG_SHIFT_LENGTH]

/-- C3: for all arguments the word written to REG_SHIFT_LENGTH has bits [15:5]
zero, that is `word & 0x0000ffe0 = 0`; a bit of the word can only be set inside
bits[4:0] or bits[31:16]. -/
theorem shift_length_undefined_bits_zero (base shift length : Nat) (s : Machine) :
    (fir_shift_length_set base shift length s).mem (base + 0x4c) &&& 0x0000ffe0 = 0 ∧
    (∀ i : Nat, ((fir_shift_length_set base shift length s).mem (base + 0x4c)).testBit i = true →
      i < 5 ∨ (16 ≤ i ∧ i < 32)) ∧
    (fir_shift_length_set base shift length s).trace
      = s.trace ++ [Access.write (base + 0x4c)
          ((fir_shift_length_set base shift length s).mem (base + 0x4c))] := by
  have h1 : length % 65536 < 65536 := Nat.mod_lt _ (by norm_num)
  have h2 : shift % 32 < 32 := Nat.mod_lt _ (by norm_num)
  have hz : (fir_shift_length_set base shift length s).mem (base + 0x4c) &&& 0xffe0 = 0 := by
    rw [and_ffe0_low, shift_length_mem]
    have : (length % 65536 * 65536 + shift % 32) % 65536 = shift % 32 := by omega
    rw [this]
    exact and_ffe0_small _ h2
  refine ⟨hz, ?_, ?_⟩
  · intro i hi
    by_contra hcon
    have hcases : (5 ≤ i ∧ i < 16) ∨ 32 ≤ i := by omega
    rcases hcases with ⟨h5, h16⟩ | h32
    · have hb := congrArg (fun n => Nat.testBit n i) hz
      simp only [Nat.testBit_and, hi, testBit_ffe0 i h5 h16, Nat.zero_testBit] at hb
      exact absurd hb (by decide)
    · have hlt : (fir_shift_length_set base shift length s).mem (base + 0x4c) < 2 ^ i := by
        rw [shift_length_mem]
        calc length % 65536 * 65536 + shift % 32 < 2 ^ 32 := by norm_num; omega
          _ ≤ 2 ^ i := Nat.pow_le_pow_right (by norm_num) h32
      rw [Nat.testBit_lt_two_pow hlt] at hi
      exact absurd hi (by decide)
  · simp [fir_shift_length_set, HWPE_WRITE, store, FIR_REG_SHIFT_LENGTH]

/-! ## The bit-insert fallback macro -/

/-- C10: over 32-bit operands, for every width `1 ≤ c` and position `d` with
`d + c ≤ 32`, `__builtin_bitinsert(a, b, c, d)` equals `a | ((b mod 2^c) << d)`
and is again a 32-bit value; when bits [d, d+c) of `a` are zero, bits
[d, d+c) of the result are `b mod 2^c`; every bit outside [d, d+c) is the bit
of `a`; and every bit set in `a` stays set (the field is ORed in, not
replaced). -/
theorem builtin_bitinsert_or_field (a b c d : Nat) (ha : a < 2 ^ 32) (_hc : 1 ≤ c) (hcd : d + c ≤ 32) :
    __builtin_bitinsert a b c d = a ||| ((b % 2 ^ c) <<< d) ∧
    __builtin_bitinsert a b c d < 2 ^ 32 ∧
    ((a >>> d) % 2 ^ c = 0 → (__builtin_bitinsert a b c d >>> d) % 2 ^ c = b % 2 ^ c) ∧
    (∀ i : Nat, i < d ∨ d + c ≤ i →
      (__builtin_bitinsert a b c d).testBit i = a.testBit i) ∧
    (∀ i : Nat, a.testBit i = true → (__builtin_bitinsert a b c d).testBit i = true) := by
  have heq : __builtin_bitinsert a b c d = a ||| ((b % 2 ^ c) <<< d) := by
    unfold __builtin_bitinsert
    rw [bitinsert_field b c d hcd]
  refine ⟨heq, ?_, ?_, ?_, ?_⟩
  · rw [heq]
    apply Nat.or_lt_two_pow ha
    rw [Nat.shiftLeft_eq]
    calc b % 2 ^ c * 2 ^ d < 2 ^ c * 2 ^ d :=
          Nat.mul_lt_mul_of_pos_right (Nat.mod_lt _ (Nat.two_pow_pos _)) (Nat.two_pow_pos _)
      _ = 2 ^ (c + d) := (pow_add 2 c d).symm
      _ ≤ 2 ^ 32 := Nat.pow_le_pow_right (by norm_num) (by omega)
  · intro hz
    apply Nat.eq_of_testBit_eq
    intro i
    have hzi := congrArg (fun n => Nat.testBit n i) hz
    simp only [Nat.testBit_mod_two_pow, Nat.testBit_shiftRight, Nat.zero_testBit] at hzi
    rw [heq, Nat.testBit_mod_two_pow, Nat.testBit_shiftRight, Nat.testBit_or, testBit_field,
      Nat.testBit_mod_two_pow]
    by_cases hi : i < c
    · simp [hi] at hzi ⊢
      simp [hzi]
    · simp [hi]
  · intro i hi
    rw [heq, Nat.testBit_or, testBit_field]
    rcases hi with hi | hi
    · have : ¬ d ≤ i := by omega
      simp [this]
    · have : ¬ (i - d < c) := by omega
      simp [this]
  · intro i hi
    rw [heq, Nat.testBit_or, hi]
    simp

/-- The macro at `a = 0x0f`, `b = 0xabc`, width 4, position 8, and on a
destination whose field is already set: `0xff` with a zero field inserted stays
`0xff`. -/
theorem builtin_bitinsert_or_field_witness :
    (0x0f < 2 ^ 32 ∧ 1 ≤ 4 ∧ 8 + 4 ≤ 32) ∧
    __builtin_bitinsert 0x0f 0xabc 4 8 = 0x0f ||| ((0xabc % 2 ^ 4) <<< 8) ∧
    __builtin_bitinsert 0x0f 0xabc 4 8 = 0xc0f ∧
    __builtin_bitinsert 0xff 0 4 0 = 0xff :=
  ⟨⟨by decide, by decide, by decide⟩,
    (builtin_bitinsert_or_field 0x0f 0xabc 4 8 (by decide) (by decide) (by decide)).1,
    by decide, by decide⟩

/-! ## Frame lemmas for stores and loads -/

theorem store_mem_same (addr value : Nat) (s : Machine) :
    (store addr value s).mem addr = value % 2 ^ 32 := by
  simp [store]

theorem store_mem_other (addr value a : Nat) (s : Machine) (h : a ≠ addr) :
    (store addr value s).mem a = s.mem a := by
  simp [store, h]

theorem store_trace (addr value : Nat) (s : Machine) :
    (store addr value s).trace = s.trace ++ [Access.write addr (value % 2 ^ 32)] :=
  rfl

/-- Two stores to different addresses commute on the memory. -/
theorem store_comm_mem (a1 a2 v1 v2 : Nat) (s : Machine) (h : a1 ≠ a2) :
    (store a1 v1 (store a2 v2 s)).mem = (store a2 v2 (store a1 v1 s)).mem := by
  funext a
  simp only [store]
  by_cases h1 : a = a1
  · by_cases h2 : a = a2
    · exact absurd (h1.symm.trans h2) h
    · simp [h1, h]
  · simp [h1]

/-- A store overwrites an earlier store to the same address. -/
theorem store_overwrite_mem (addr v1 v2 : Nat) (s : Machine) :
    (store addr v2 (store addr v1 s)).mem = (store addr v2 s).mem := by
  funext a
  simp only [store]
  by_cases h1 : a = addr <;> simp [h1]

/-- A word below `2^31` reads as itself, a word from `2^31` on as negative. -/
theorem toInt32_range (w : Nat) :
    -(2 ^ 31) ≤ toInt32 w ∧ toInt32 w < 2 ^ 31 ∧
    (toInt32 w < 0 ↔ 2 ^ 31 ≤ w % 2 ^ 32) ∧
    (0 ≤ toInt32 w → toInt32 w = ((w % 2 ^ 32 : Nat) : Int)) ∧
    (toInt32 w) % 2 ^ 32 = ((w % 2 ^ 32 : Nat) : Int) := by
  have hlt : w % 2 ^ 32 < 2 ^ 32 := Nat.mod_lt _ (Nat.two_pow_pos _)
  unfold toInt32
  split_ifs with h <;> norm_num at * <;> omega

/-- Bit 31 of a word is set exactly when the word is `2^31` or more. -/
theorem testBit31_iff (w : Nat) : w.testBit 31 = true ↔ 2 ^ 31 ≤ w % 2 ^ 32 := by
  rw [Nat.testBit_to_div_mod]
  norm_num
  omega

/-! ## Operand registers -/

/-- C4: each operand setter stores its argument in its own register
(`fir_x_addr_set` at 0x40, `fir_h_addr_set` at 0x44, `fir_y_addr_set` at 0x48),
makes that one write and no other access, and leaves every other address as it
was; setters of different roles commute on the register file, and a second
write to a role replaces the first. -/
theorem operand_setters_frame (base x h y : Nat) (s : Machine)
    (hx : x < 2 ^ 32) (hh : h < 2 ^ 32) (hy : y < 2 ^ 32) :
    ((fir_x_addr_set base x s).mem (base + 0x40) = x ∧
      (∀ a : Nat, a ≠ base + 0x40 → (fir_x_addr_set base x s).mem a = s.mem a) ∧
      (fir_x_addr_set base x s).trace = s.trace ++ [Access.write (base + 0x40) x]) ∧
    ((fir_h_addr_set base h s).mem (base + 0x44) = h ∧
      (∀ a : Nat, a ≠ base + 0x44 → (fir_h_addr_set base h s).mem a = s.mem a) ∧
      (fir_h_addr_set base h s).trace = s.trace ++ [Access.write (base + 0x44) h]) ∧
    ((fir_y_addr_set base y s).mem (base + 0x48) = y ∧
      (∀ a : Nat, a ≠ base + 0x48 → (fir_y_addr_set base y s).mem a = s.mem a) ∧
      (fir_y_addr_set base y s).trace = s.trace ++ [Access.write (base + 0x48) y]) ∧
    ((fir_x_addr_set base x (fir_h_addr_set base h s)).mem
        = (fir_h_addr_set base h (fir_x_addr_set base x s)).mem ∧
      (fir_x_addr_set base x (fir_y_addr_set base y s)).mem
        = (fir_y_addr_set base y (fir_x_addr_set base x s)).mem ∧
      (fir_h_addr_set base h (fir_y_addr_set base y s)).mem
        = (fir_y_addr_set base y (fir_h_addr_set base h s)).mem) ∧
    (∀ v : Nat,
      (fir_x_addr_set base x (fir_x_addr_set base v s)).mem = (fir_x_addr_set base x s).mem ∧
      (fir_h_addr_set base h (fir_h_addr_set base v s)).mem = (fir_h_addr_set base h s).mem ∧
      (fir_y_addr_set base y (fir_y_addr_set base v s)).mem = (fir_y_addr_set base y s).mem) := by
  have mx : x % 2 ^ 32 = x := Nat.mod_eq_of_lt hx
  have mh : h % 2 ^ 32 = h := Nat.mod_eq_of_lt hh
  have my : y % 2 ^ 32 = y := Nat.mod_eq_of_lt hy
  simp only [fir_x_addr_set, fir_h_addr_set, fir_y_addr_set, HWPE_WRITE, FIR_REG_X_ADDR,
    FIR_REG_H_ADDR, FIR_REG_Y_ADDR]
  refine ⟨⟨?_, ?_, ?_⟩, ⟨?_, ?_, ?_⟩, ⟨?_, ?_, ?_⟩, ⟨?_, ?_, ?_⟩, ?_⟩
  · rw [store_mem_same, mx]
  · exact fun a ha => store_mem_other _ _ _ _ ha
  · rw [store_trace, mx]
  · rw [store_mem_same, mh]
  · exact fun a ha => store_mem_other _ _ _ _ ha
  · rw [store_trace, mh]
  · rw [store_mem_same, my]
  · exact fun a ha => store_mem_other _ _ _ _ ha
  · rw [store_trace, my]
  · exact store_comm_mem _ _ _ _ _ (by omega)
  · exact store_comm_mem _ _ _ _ _ (by omega)
  · exact store_comm_mem _ _ _ _ _ (by omega)
  · intro v
    exact ⟨store_overwrite_mem _ _ _ _, store_overwrite_mem _ _ _ _, store_overwrite_mem _ _ _ _⟩

/-- The three setters on an all-zero machine at base `0x100000`: after
`x`, `h`, `y` are set to `0x1c000000`, `0x1c000800`, `0x1c001000` in any of two
orders, the register file is the same and holds the three addresses. -/
theorem operand_setters_frame_witness :
    (0x1c000000 < 2 ^ 32 ∧ 0x1c000800 < 2 ^ 32 ∧ 0x1c001000 < 2 ^ 32) ∧
    (fir_x_addr_set FIR_ADDR_BASE 0x1c000000 Machine.zero).mem (FIR_ADDR_BASE + 0x40)
      = 0x1c000000 ∧
    (fir_x_addr_set FIR_ADDR_BASE 0x1c000000 (fir_h_addr_set FIR_ADDR_BASE 0x1c000800
        Machine.zero)).mem
      = (fir_h_addr_set FIR_ADDR_BASE 0x1c000800 (fir_x_addr_set FIR_ADDR_BASE 0x1c000000
        Machine.zero)).mem :=
  ⟨⟨by decide, by decide, by decide⟩,
    (operand_setters_frame FIR_ADDR_BASE 0x1c000000 0x1c000800 0x1c001000 Machine.zero
      (by decide) (by decide) (by decide)).1.1,
    (operand_setters_frame FIR_ADDR_BASE 0x1c000000 0x1c000800 0x1c001000 Machine.zero
      (by decide) (by decide) (by decide)).2.2.2.1.1⟩

/-! ## Acquisition -/

/-- C5: `fir_acquire_job` makes exactly one access, a read of ACQUIRE (offset
0x04), leaves the memory unchanged, and returns the word read as a signed
32-bit integer.  Hence when ACQUIRE holds a word with bit 31 set the call
returns a negative value, and so does every later call while the register
keeps that word; and a non-negative result equals the word held by the
register. -/
theorem acquire_reads_once (base : Nat) (s : Machine) :
    (fir_acquire_job base s).2.trace
      = s.trace ++ [Access.read (base + 0x04) (s.mem (base + 0x04) % 2 ^ 32)] ∧
    (fir_acquire_job base s).2.mem = s.mem ∧
    (-(2 ^ 31) ≤ (fir_acquire_job base s).1 ∧ (fir_acquire_job base s).1 < 2 ^ 31 ∧
      (fir_acquire_job base s).1 % 2 ^ 32 = ((s.mem (base + 0x04) % 2 ^ 32 : Nat) : Int)) ∧
    ((s.mem (base + 0x04)).testBit 31 = true →
      (fir_acquire_job base s).1 < 0 ∧
      ∀ n : Nat,
        (fir_acquire_job base (Nat.iterate (fun t => (fir_acquire_job base t).2) n s)).1 < 0) ∧
    (0 ≤ (fir_acquire_job base s).1 →
      (fir_acquire_job base s).1 = ((s.mem (base + 0x04) % 2 ^ 32 : Nat) : Int) ∧
      (s.mem (base + 0x04)).testBit 31 = false) := by
  have hval : ∀ t : Machine, (fir_acquire_job base t).1 = toInt32 (t.mem (base + 0x04)) := by
    intro t
    simp [fir_acquire_job, HWPE_READ, load, FIR_ACQUIRE, toInt32]
  have hmem : ∀ t : Machine, (fir_acquire_job base t).2.mem = t.mem := fun t => rfl
  have hr := toInt32_range (s.mem (base + 0x04))
  refine ⟨rfl, rfl, ⟨?_, ?_, ?_⟩, ?_, ?_⟩
  · rw [hval]; exact hr.1
  · rw [hval]; exact hr.2.1
  · rw [hval]; exact hr.2.2.2.2
  · intro hbit
    have hneg : toInt32 (s.mem (base + 0x04)) < 0 := hr.2.2.1.mpr ((testBit31_iff _).mp hbit)
    refine ⟨by rw [hval]; exact hneg, ?_⟩
    intro n
    have hiter : (Nat.iterate (fun t => (fir_acquire_job base t).2) n s).mem = s.mem := by
      induction n with
      | zero => rfl
      | succ k ih =>
        rw [Function.iterate_succ_apply']
        exact (hmem _).trans ih
    rw [hval, hiter]
    exact hneg
  · intro hpos
    rw [hval] at hpos ⊢
    refine ⟨hr.2.2.2.1 hpos, ?_⟩
    by_contra hb
    have hb2 : (s.mem (base + 0x04)).testBit 31 = true := by
      cases hbit : (s.mem (base + 0x04)).testBit 31
      · exact absurd hbit hb
      · rfl
    have := hr.2.2.1.mpr ((testBit31_iff _).mp hb2)
    omega

/-- A busy accelerator: ACQUIRE holds `0xffffffff`, and the first and the
fourth call both return -1. -/
theorem acquire_reads_once_witness :
    (hw_present FIR_ADDR_BASE 0xffffffff Machine.zero).mem (FIR_ADDR_BASE + 0x04)
      = 0xffffffff ∧
    (fir_acquire_job FIR_ADDR_BASE (hw_present FIR_ADDR_BASE 0xffffffff Machine.zero)).1 = -1 ∧
    (fir_acquire_job FIR_ADDR_BASE (hw_present FIR_ADDR_BASE 0xffffffff Machine.zero)).1 < 0 ∧
    (fir_acquire_job FIR_ADDR_BASE
      (Nat.iterate (fun t => (fir_acquire_job FIR_ADDR_BASE t).2) 3
        (hw_present FIR_ADDR_BASE 0xffffffff Machine.zero))).1 < 0 :=
  ⟨by decide, by decide,
    ((acquire_reads_once FIR_ADDR_BASE
      (hw_present FIR_ADDR_BASE 0xffffffff Machine.zero)).2.2.2.1 (by decide)).1,
    ((acquire_reads_once FIR_ADDR_BASE
      (hw_present FIR_ADDR_BASE 0xffffffff Machine.zero)).2.2.2.1 (by decide)).2 3⟩

/-! ## Soft clear -/

/-- C8: `fir_soft_clear` makes exactly one access, the write of 0 to SOFT_CLEAR
(offset 0x14); afterwards 0x14 holds 0 and every other address, the operand
and parameter registers 0x40, 0x44, 0x48 and 0x4c among them, holds the word it
held before.  It reads nothing and is a total function. -/
theorem soft_clear_frame (base : Nat) (s : Machine) :
    (fir_soft_clear base s).trace = s.trace ++ [Access.write (base + 0x14) 0] ∧
    (fir_soft_clear base s).mem (base + 0x14) = 0 ∧
    (∀ a : Nat, a ≠ base + 0x14 → (fir_soft_clear base s).mem a = s.mem a) ∧
    (fir_soft_clear base s).mem (base + 0x40) = s.mem (base + 0x40) ∧
    (fir_soft_clear base s).mem (base + 0x44) = s.mem (base + 0x44) ∧
    (fir_soft_clear base s).mem (base + 0x48) = s.mem (base + 0x48) ∧
    (fir_soft_clear base s).mem (base + 0x4c) = s.mem (base + 0x4c) := by
  simp only [fir_soft_clear, HWPE_WRITE, FIR_SOFT_CLEAR]
  refine ⟨rfl, store_mem_same _ _ _, fun a ha => store_mem_other _ _ _ _ ha, ?_, ?_, ?_, ?_⟩ <;>
    exact store_mem_other _ _ _ _ (by omega)

/-! ## Issue orders of plain stores -/

end FirHwpe
